import Mathlib

/-!
Verification of the pagination / session core of `src/bot.py`.

Python strings are embedded as `List Char`; the global configuration
constant, the pagination routine `split_pages` (with its word-level
fallback loop), and the stateful handlers `handle_epub`, `send_page`
and `callbacks` are translated function-by-function from the source.
The MongoDB `users` collection and the process-global `book_cache`
dictionary become the two fields of `BotState`; Python exceptions
(`ZeroDivisionError` from `(page+1)/total`, `IndexError` from
`pages[page]`) become an `Except PyErr` result.
-/

namespace Reader

/-- A Python string, embedded as its list of characters. -/
abbrev Str := List Char

/-- The characters removed by Python's `str.strip()`. -/
def isWS (c : Char) : Bool :=
  c = ' ' || c = '\t' || c = '\n' || c = '\r' || c = '\x0b' || c = '\x0c'

/-- Python `s.lstrip()`: drop leading whitespace. -/
def lstrip (s : Str) : Str := s.dropWhile isWS

/-- Python `s.rstrip()`: drop trailing whitespace. -/
def rstrip (s : Str) : Str := (s.reverse.dropWhile isWS).reverse

/-- Python `s.strip()`: drop whitespace at both ends. -/
def strip (s : Str) : Str := rstrip (lstrip s)

/-- The paragraph separator appended by `split_pages`, Python `"\n\n"`. -/
def sep : Str := ['\n', '\n']

/-- Python `p.split(" ")` (line 83): split on every single space,
keeping empty pieces for consecutive separators. -/
def splitOnSpace : Str → List Str
  | [] => [[]]
  | c :: rest =>
    match splitOnSpace rest with
    | [] => [[c]]
    | s :: ss => if c = ' ' then [] :: s :: ss else (c :: s) :: ss

/-- `MAX_CHARS_PER_PAGE = 900` (line 27). -/
def MAX_CHARS_PER_PAGE : Nat := 900

/-- One iteration of the inner `for w in words` loop of `split_pages`
(lines 85-90): the accumulator is the pair (pages built so far, chunk). -/
def wordStep (acc : List Str × Str) (w : Str) : List Str × Str :=
  if acc.2.length + w.length + 1 > MAX_CHARS_PER_PAGE then
    (acc.1 ++ [strip acc.2], w ++ [' '])
  else
    (acc.1, acc.2 ++ w ++ [' '])

/-- The final `if chunk.strip(): pages.append(chunk.strip())` flush used by
both loops of `split_pages` (lines 91-92 and 102-103). -/
def flushAcc (r : List Str × Str) : List Str :=
  if strip r.2 ≠ [] then r.1 ++ [strip r.2] else r.1

/-- The word-level fallback for one over-budget paragraph
(lines 83-92): the list of pages it appends. -/
def splitLongPara (p : Str) : List Str :=
  flushAcc ((splitOnSpace p).foldl wordStep ([], []))

/-- One iteration of the outer `for p in paragraphs` loop of
`split_pages` (lines 80-100). -/
def pageStep (acc : List Str × Str) (p : Str) : List Str × Str :=
  if p.length > MAX_CHARS_PER_PAGE then
    (acc.1 ++ splitLongPara p, acc.2)
  else if acc.2.length + p.length + 2 > MAX_CHARS_PER_PAGE then
    (acc.1 ++ [strip acc.2], p ++ sep)
  else
    (acc.1, acc.2 ++ p ++ sep)

/-- `split_pages` (lines 76-105). -/
def split_pages (paragraphs : List Str) : List Str :=
  flushAcc (paragraphs.foldl pageStep ([], []))

/-- Joining a list of strings with the paragraph separator: the
vocabulary of the reconstruction property, not source code. -/
def joinSep : List Str → Str
  | [] => []
  | [x] => x
  | x :: y :: xs => x ++ sep ++ joinSep (y :: xs)

/-- A block as the extractor hands it to the paginator: trimmed,
non-empty, and (for the reconstruction property) within the budget. -/
def GoodBlock (p : Str) : Prop :=
  strip p = p ∧ p ≠ [] ∧ p.length ≤ MAX_CHARS_PER_PAGE

instance (p : Str) : Decidable (GoodBlock p) := by
  unfold GoodBlock
  infer_instance

/-- Groups of blocks, each of which became one page. -/
def GoodGroups (gs : List (List Str)) : Prop :=
  ∀ gr ∈ gs, gr ≠ [] ∧ ∀ p ∈ gr, GoodBlock p

/-- The invariant the running accumulator of the outer loop satisfies:
it is empty or carries a trailing separator and at most budget + 2
characters. -/
def CurInv (cur : Str) : Prop :=
  cur = [] ∨ (cur.length ≤ MAX_CHARS_PER_PAGE + 2 ∧ ∃ t, cur = t ++ sep)

/-! ### The stateful core: `users` store, `book_cache`, handlers

`users` (the MongoDB collection, keyed by `user_id`, holding `page`)
and `book_cache` (the process-global dict) are the two fields of
`BotState`.  Python exceptions raised inside a handler surface as
`Except.error`; a handler that merely `return`s yields its input state
and no render. -/

/-- One entry of `book_cache` (lines 45-51, 172-177). -/
structure Book where
  title : Str
  author : Str
  pages : List Str
  message_id : Option Nat
deriving DecidableEq

/-- The exceptions the modelled code can raise: `(page+1)/total` with
`total = 0`, and `pages[page]` with `page` out of range. -/
inductive PyErr where
  | zeroDivisionError
  | indexError
deriving DecidableEq

/-- The render payload handed to the presentation layer by `send_page`
(lines 194-199): title, author, current page text, 1-based position,
total page count, integer progress percent. -/
structure Render where
  title : Str
  author : Str
  pageText : Str
  pos : Nat
  total : Nat
  progress : Nat
deriving DecidableEq

/-- The mutable state the handlers touch: the durable `users` store and
the in-memory `book_cache`, both keyed by user id. -/
structure BotState where
  users : Nat → Option Nat
  cache : Nat → Option Book

def setUser (st : BotState) (uid : Nat) (v : Option Nat) : BotState :=
  { st with users := fun u => if u = uid then v else st.users u }

def setCache (st : BotState) (uid : Nat) (v : Option Book) : BotState :=
  { st with cache := fun u => if u = uid then v else st.cache u }

/-- `send_page` (lines 183-216).  Returns early when the cursor record
or the cached book is missing; raises `ZeroDivisionError` computing
`int((page+1)/total*100)` when the book has no pages; raises
`IndexError` evaluating `cache["pages"][page]` when the stored page
index is out of range.  `progress` is modelled as the rational floor of
`(page+1)*100/total` (Python truncates the float quotient); the sent
message id is modelled as an arbitrary fresh constant. -/
def send_page (st : BotState) (uid : Nat) (first : Bool) :
    Except PyErr (BotState × Option Render) :=
  match st.users uid, st.cache uid with
  | some page, some bk =>
    let total := bk.pages.length
    if total = 0 then .error .zeroDivisionError
    else
      let progress := (page + 1) * 100 / total
      if h : page < total then
        let payload : Render :=
          ⟨bk.title, bk.author, bk.pages.get ⟨page, h⟩, page + 1, total, progress⟩
        if first || bk.message_id == none then
          .ok (setCache st uid (some { bk with message_id := some 1 }), some payload)
        else
          .ok (st, some payload)
      else .error .indexError
  | _, _ => .ok (st, none)

/-- The three callback buttons (line 239, 243, 247). -/
inductive Ev where
  | next
  | prev
  | clear
deriving DecidableEq

/-- `callbacks` (lines 220-278).  Returns untouched state when the
cursor record or the cached book is missing; `clear` deletes both
records and sends a plain (non-render) reset message; `next`/`prev`
clamp at the boundaries, persist the page index, and re-render via
`send_page`.  The `query.answer()` transport acknowledgement and the
message-deletion calls are external effects outside the model. -/
def callbacks (st : BotState) (uid : Nat) (ev : Ev) :
    Except PyErr (BotState × Option Render) :=
  match st.users uid, st.cache uid with
  | some page, some bk =>
    match ev with
    | .clear => .ok (setCache (setUser st uid none) uid none, none)
    | .next =>
      let total := bk.pages.length
      let page' := if page < total - 1 then page + 1 else page
      send_page (setUser st uid (some page')) uid false
    | .prev =>
      let page' := if page > 0 then page - 1 else page
      send_page (setUser st uid (some page')) uid false
  | _, _ => .ok (st, none)

def defaultTitle : Str := ("Без названия" : String).data

def defaultAuthor : Str := ("Автор неизвестен" : String).data

/-- The core of `handle_epub` (lines 145-179), entered after download
and spine extraction: `paragraphs` is what the `clean_html` loop
produced, `title`/`author` the optional metadata.  It paginates,
upserts the cursor to page 0, replaces the `book_cache` entry, then
calls `send_page`.  If `send_page` raises, the two writes have already
happened, so the post-write state is returned alongside the error. -/
def handle_epub (st : BotState) (uid : Nat) (paragraphs : List Str)
    (title author : Option Str) : BotState × Except PyErr (Option Render) :=
  let pages := split_pages paragraphs
  let t := title.getD defaultTitle
  let a := author.getD defaultAuthor
  let st1 := setUser st uid (some 0)
  let st2 := setCache st1 uid (some ⟨t, a, pages, none⟩)
  match send_page st2 uid true with
  | .ok (st3, out) => (st3, .ok out)
  | .error e => (st2, .error e)

/-- The empty initial state: no cursor records, no cached books. -/
def st0 : BotState := ⟨fun _ => none, fun _ => none⟩

/-- A cached three-page book. -/
def bk3 : Book := ⟨['t'], ['a'], [['p'], ['q'], ['r']], some 1⟩

/-- A state whose stored cursor (5) is out of range for the cached
three-page book. -/
def st3 : BotState := ⟨fun _ => some 5, fun _ => some bk3⟩

/-- A state with a durable cursor record but no cached book, as left by
a process restart. -/
def st9 : BotState := ⟨fun _ => some 0, fun _ => none⟩

/-! ### Generic facts about `List.dropWhile` -/

theorem length_dropWhile_le (p : Char → Bool) (l : List Char) :
    (l.dropWhile p).length ≤ l.length := by
  induction l with
  | nil => simp
  | cons a t ih =>
    rw [List.dropWhile_cons]
    by_cases h : p a
    · simp [h]; omega
    · simp [h]

theorem dropWhile_eq_of_length (p : Char → Bool) (l : List Char)
    (h : (l.dropWhile p).length = l.length) : l.dropWhile p = l := by
  have hd := List.takeWhile_append_dropWhile p l
  have hlen : (l.takeWhile p).length + (l.dropWhile p).length = l.length := by
    rw [← List.length_append, hd]
  have htw : l.takeWhile p = [] := by
    have : (l.takeWhile p).length = 0 := by omega
    exact List.eq_nil_of_length_eq_zero this
  calc l.dropWhile p = l.takeWhile p ++ l.dropWhile p := by rw [htw]; simp
    _ = l := hd

theorem dropWhile_idem (p : Char → Bool) (l : List Char) :
    (l.dropWhile p).dropWhile p = l.dropWhile p := by
  induction l with
  | nil => simp
  | cons a t ih =>
    rw [List.dropWhile_cons]
    by_cases h : p a
    · simp [h, ih]
    · simp [List.dropWhile_cons, h]

theorem dropWhile_append_ite (p : Char → Bool) (a b : List Char) :
    List.dropWhile p (a ++ b) =
      if a.dropWhile p = [] then b.dropWhile p else a.dropWhile p ++ b := by
  induction a with
  | nil => simp
  | cons c t ih =>
    by_cases h : p c
    · simpa [List.dropWhile_cons, h] using ih
    · simp [List.dropWhile_cons, h]

theorem dropWhile_append_of_ne (p : Char → Bool) (a b : List Char)
    (h : a.dropWhile p ≠ []) : List.dropWhile p (a ++ b) = a.dropWhile p ++ b := by
  rw [dropWhile_append_ite]
  simp [h]

theorem dropWhile_append_of_eq (p : Char → Bool) (a b : List Char)
    (h : a.dropWhile p = []) : List.dropWhile p (a ++ b) = b.dropWhile p := by
  rw [dropWhile_append_ite]
  simp [h]

theorem dropWhile_cons_head (p : Char → Bool) (c : Char) (t : List Char)
    (h : List.dropWhile p (c :: t) = c :: t) : p c = false := by
  by_cases hc : p c
  · exfalso
    rw [List.dropWhile_cons, if_pos hc] at h
    have := length_dropWhile_le p t
    have : (List.dropWhile p t).length = t.length + 1 := by rw [h]; simp
    omega
  · simpa using hc

theorem eq_of_dropWhile_append_eq (p : Char → Bool) (x y : List Char)
    (h : List.dropWhile p (x ++ y) = x ++ y) : x.dropWhile p = x := by
  cases x with
  | nil => simp
  | cons c t =>
    have hc : p c = false := by
      apply dropWhile_cons_head p c (t ++ y)
      simpa using h
    simp [List.dropWhile_cons, hc]

/-! ### Facts about `lstrip`, `rstrip`, `strip` -/

theorem strip_nil : strip [] = [] := rfl

theorem rstrip_length_le (s : Str) : (rstrip s).length ≤ s.length := by
  have := length_dropWhile_le isWS s.reverse
  simpa [rstrip] using this

theorem strip_length_le (s : Str) : (strip s).length ≤ s.length := by
  have h1 := rstrip_length_le (lstrip s)
  have h2 := length_dropWhile_le isWS s
  simp only [strip]
  calc (rstrip (lstrip s)).length ≤ (lstrip s).length := h1
    _ ≤ s.length := h2

theorem rstrip_append_ws (x w : Str) (hw : w.reverse.dropWhile isWS = []) :
    rstrip (x ++ w) = rstrip x := by
  simp only [rstrip, List.reverse_append]
  rw [dropWhile_append_of_eq isWS w.reverse x.reverse hw]

theorem rstrip_append_sep (x : Str) : rstrip (x ++ sep) = rstrip x := by
  apply rstrip_append_ws
  decide

theorem rstrip_append_space (x : Str) : rstrip (x ++ [' ']) = rstrip x := by
  apply rstrip_append_ws
  decide

theorem lstrip_idem (s : Str) : lstrip (lstrip s) = lstrip s :=
  dropWhile_idem isWS s

theorem rstrip_idem (s : Str) : rstrip (rstrip s) = rstrip s := by
  simp only [rstrip, List.reverse_reverse]
  rw [dropWhile_idem]

theorem strip_append_ws (s w : Str) (h1 : List.dropWhile isWS w = [])
    (h2 : w.reverse.dropWhile isWS = []) : strip (s ++ w) = strip s := by
  simp only [strip, lstrip]
  by_cases hs : List.dropWhile isWS s = []
  · rw [dropWhile_append_of_eq isWS s w hs, h1, hs]
  · rw [dropWhile_append_of_ne isWS s w hs]
    exact rstrip_append_ws _ w h2

theorem strip_append_sep (s : Str) : strip (s ++ sep) = strip s := by
  apply strip_append_ws <;> decide

theorem strip_append_space (s : Str) : strip (s ++ [' ']) = strip s := by
  apply strip_append_ws <;> decide

theorem strip_ws_append (s w : Str) (h1 : List.dropWhile isWS w = []) :
    strip (w ++ s) = strip s := by
  simp only [strip, lstrip]
  rw [dropWhile_append_of_eq isWS w s h1]

theorem strip_sep_append (s : Str) : strip (sep ++ s) = strip s := by
  apply strip_ws_append
  decide

theorem rstrip_prefix_decomp (s : Str) :
    ∃ m, s = rstrip s ++ m := by
  refine ⟨(s.reverse.takeWhile isWS).reverse, ?_⟩
  conv_lhs => rw [← List.reverse_reverse s,
    ← List.takeWhile_append_dropWhile isWS s.reverse]
  rw [List.reverse_append]
  rfl

theorem lstrip_rstrip_of_lstrip (v : Str) (h : lstrip v = v) :
    lstrip (rstrip v) = rstrip v := by
  obtain ⟨m, hm⟩ := rstrip_prefix_decomp v
  cases hr : rstrip v with
  | nil => simp [lstrip]
  | cons d u =>
    have hd : isWS d = false := by
      cases v with
      | nil => simp [rstrip] at hr
      | cons c t =>
        have hc : isWS c = false :=
          dropWhile_cons_head isWS c t (by simpa [lstrip] using h)
        rw [hr] at hm
        have hcd : c = d := by
          have : c :: t = d :: (u ++ m) := by simpa using hm
          exact (List.cons_eq_cons.mp this).1
        rwa [← hcd]
    simp [lstrip, List.dropWhile_cons, hd]

theorem strip_idem (s : Str) : strip (strip s) = strip s := by
  simp only [strip]
  rw [lstrip_rstrip_of_lstrip (lstrip s) (lstrip_idem s), rstrip_idem]

theorem strip_eq_self_parts (x : Str) (h : strip x = x) :
    lstrip x = x ∧ rstrip x = x := by
  have hl : lstrip x = x := by
    apply dropWhile_eq_of_length
    have h1 : (strip x).length ≤ (lstrip x).length := rstrip_length_le (lstrip x)
    have h2 := length_dropWhile_le isWS x
    have : (lstrip x).length = x.length := by rw [h] at h1; exact Nat.le_antisymm h2 h1
    simpa [lstrip] using this
  refine ⟨hl, ?_⟩
  have : strip x = rstrip x := by rw [strip, hl]
  rw [← this, h]

theorem rstrip_rev_of_eq_self (y : Str) (h : rstrip y = y) :
    List.dropWhile isWS y.reverse = y.reverse := by
  have := congrArg List.reverse h
  simpa [rstrip] using this

theorem strip_glue (x y : Str) (hx : strip x = x) (hxne : x ≠ [])
    (hy : strip y = y) (hyne : y ≠ []) :
    strip (x ++ sep ++ y) = x ++ sep ++ y := by
  obtain ⟨hxl, _⟩ := strip_eq_self_parts x hx
  obtain ⟨_, hyr⟩ := strip_eq_self_parts y hy
  have hl : lstrip (x ++ sep ++ y) = x ++ sep ++ y := by
    simp only [lstrip, List.append_assoc]
    rw [dropWhile_append_of_ne isWS x (sep ++ y) (by rw [show List.dropWhile isWS x = x from hxl]; exact hxne)]
    rw [show List.dropWhile isWS x = x from hxl]
  have hr : rstrip (x ++ sep ++ y) = x ++ sep ++ y := by
    simp only [rstrip, List.append_assoc, List.reverse_append]
    rw [dropWhile_append_of_ne isWS y.reverse (sep.reverse ++ x.reverse)
      (by rw [rstrip_rev_of_eq_self y hyr]; simpa using hyne)]
    rw [rstrip_rev_of_eq_self y hyr]
    simp
  simp only [strip, lstrip] at hl ⊢
  rw [hl]
  exact hr

/-! ### Joining with the paragraph separator -/

theorem joinSep_cons (x : Str) (ys : List Str) (h : ys ≠ []) :
    joinSep (x :: ys) = x ++ sep ++ joinSep ys := by
  cases ys with
  | nil => exact absurd rfl h
  | cons y t => rfl

theorem joinSep_append (xs ys : List Str) (hx : xs ≠ []) (hy : ys ≠ []) :
    joinSep (xs ++ ys) = joinSep xs ++ sep ++ joinSep ys := by
  induction xs with
  | nil => exact absurd rfl hx
  | cons x t ih =>
    cases t with
    | nil => simpa using joinSep_cons x ys hy
    | cons x' t' =>
      rw [List.cons_append, joinSep_cons x ((x' :: t') ++ ys) (by simp),
        ih (by simp), joinSep_cons x (x' :: t') (by simp)]
      simp [List.append_assoc]

theorem joinSep_ne_nil (g : List Str) (hg : g ≠ [])
    (h : ∀ p ∈ g, p ≠ []) : joinSep g ≠ [] := by
  cases g with
  | nil => exact absurd rfl hg
  | cons x t =>
    cases t with
    | nil => exact h x (by simp)
    | cons y t' =>
      rw [joinSep_cons x (y :: t') (by simp)]
      have := h x (by simp)
      simp [this]

theorem strip_joinSep (g : List Str) (h : ∀ p ∈ g, GoodBlock p) :
    strip (joinSep g) = joinSep g := by
  induction g with
  | nil => rfl
  | cons x t ih =>
    cases t with
    | nil => exact (h x (by simp)).1
    | cons y t' =>
      rw [joinSep_cons x (y :: t') (by simp)]
      obtain ⟨hx, hxne, _⟩ := h x (by simp)
      refine strip_glue x (joinSep (y :: t')) hx hxne ?_ ?_
      · exact ih (fun p hp => h p (by simp [hp]))
      · exact joinSep_ne_nil (y :: t') (by simp)
          (fun p hp => (h p (by simp [hp])).2.1)

theorem joinSep_map_flatten (gs : List (List Str))
    (h : ∀ gr ∈ gs, gr ≠ [] ∧ ∀ p ∈ gr, p ≠ []) :
    joinSep (gs.map joinSep) = joinSep gs.flatten := by
  induction gs with
  | nil => rfl
  | cons g t ih =>
    cases t with
    | nil => simp [joinSep]
    | cons g' t' =>
      have hflat : ((g' :: t').flatten : List Str) ≠ [] := by
        obtain ⟨hg', _⟩ := h g' (by simp)
        cases hg'' : g' with
        | nil => exact absurd hg'' hg'
        | cons a u => simp [List.flatten, hg'']
      rw [List.map_cons, joinSep_cons (joinSep g) ((g' :: t').map joinSep) (by simp),
        ih (fun gr hgr => h gr (by simp [hgr])),
        show ((g :: g' :: t').flatten : List Str) = g ++ (g' :: t').flatten by simp,
        joinSep_append g (g' :: t').flatten (h g (by simp)).1 hflat]

/-! ### Every emitted page is already stripped -/

theorem wordFold_stripped (ws : List Str) (acc : List Str × Str)
    (h : ∀ pg ∈ acc.1, strip pg = pg) :
    ∀ pg ∈ (ws.foldl wordStep acc).1, strip pg = pg := by
  induction ws generalizing acc with
  | nil => exact h
  | cons w t ih =>
    rw [List.foldl_cons]
    apply ih
    unfold wordStep
    by_cases hc : acc.2.length + w.length + 1 > MAX_CHARS_PER_PAGE
    · simp only [if_pos hc]
      intro pg hpg
      rcases List.mem_append.mp hpg with h1 | h2
      · exact h pg h1
      · rw [List.mem_singleton.mp h2]; exact strip_idem acc.2
    · simpa only [if_neg hc] using h

theorem flushAcc_stripped (r : List Str × Str) (h : ∀ pg ∈ r.1, strip pg = pg) :
    ∀ pg ∈ flushAcc r, strip pg = pg := by
  unfold flushAcc
  by_cases hc : strip r.2 ≠ []
  · simp only [if_pos hc]
    intro pg hpg
    rcases List.mem_append.mp hpg with h1 | h2
    · exact h pg h1
    · rw [List.mem_singleton.mp h2]; exact strip_idem r.2
  · simpa only [if_neg hc] using h

theorem splitLongPara_stripped (p : Str) :
    ∀ pg ∈ splitLongPara p, strip pg = pg := by
  unfold splitLongPara
  exact flushAcc_stripped _ (wordFold_stripped (splitOnSpace p) ([], []) (by simp))

theorem pageFold_stripped (l : List Str) (acc : List Str × Str)
    (h : ∀ pg ∈ acc.1, strip pg = pg) :
    ∀ pg ∈ (l.foldl pageStep acc).1, strip pg = pg := by
  induction l generalizing acc with
  | nil => exact h
  | cons p t ih =>
    rw [List.foldl_cons]
    apply ih
    unfold pageStep
    by_cases h1 : p.length > MAX_CHARS_PER_PAGE
    · simp only [if_pos h1]
      intro pg hpg
      rcases List.mem_append.mp hpg with ha | hb
      · exact h pg ha
      · exact splitLongPara_stripped p pg hb
    · simp only [if_neg h1]
      by_cases h2 : acc.2.length + p.length + 2 > MAX_CHARS_PER_PAGE
      · simp only [if_pos h2]
        intro pg hpg
        rcases List.mem_append.mp hpg with ha | hb
        · exact h pg ha
        · rw [List.mem_singleton.mp hb]; exact strip_idem acc.2
      · simpa only [if_neg h2] using h

/-! ### Accumulator invariant: non-fallback pages stay within the budget -/

theorem stripCur_le (cur : Str) (h : CurInv cur) :
    (strip cur).length ≤ MAX_CHARS_PER_PAGE := by
  rcases h with h | ⟨hl, t, ht⟩
  · rw [h, strip_nil]; simp [MAX_CHARS_PER_PAGE]
  · rw [ht, strip_append_sep]
    have h1 := strip_length_le t
    have h2 : t.length + 2 = cur.length := by rw [ht]; simp [sep]
    omega

theorem pageFold_bounded (l : List Str) (acc : List Str × Str) (hc : CurInv acc.2) :
    ∀ pg ∈ flushAcc (l.foldl pageStep acc),
      pg ∈ acc.1 ∨ pg.length ≤ MAX_CHARS_PER_PAGE ∨
        ∃ p ∈ l, MAX_CHARS_PER_PAGE < p.length ∧ pg ∈ splitLongPara p := by
  induction l generalizing acc with
  | nil =>
    intro pg hpg
    unfold flushAcc at hpg
    by_cases hn : strip (List.foldl pageStep acc []).2 ≠ []
    · rw [if_pos hn] at hpg
      rcases List.mem_append.mp hpg with ha | hb
      · exact Or.inl ha
      · rw [List.mem_singleton.mp hb]
        exact Or.inr (Or.inl (stripCur_le acc.2 hc))
    · rw [if_neg hn] at hpg
      exact Or.inl hpg
  | cons p t ih =>
    intro pg hpg
    rw [List.foldl_cons] at hpg
    unfold pageStep at hpg
    by_cases h1 : p.length > MAX_CHARS_PER_PAGE
    · rw [if_pos h1] at hpg
      rcases ih (acc.1 ++ splitLongPara p, acc.2) hc pg hpg with ha | hb | ⟨q, hq, hql, hqm⟩
      · rcases List.mem_append.mp ha with ha1 | ha2
        · exact Or.inl ha1
        · exact Or.inr (Or.inr ⟨p, by simp, h1, ha2⟩)
      · exact Or.inr (Or.inl hb)
      · exact Or.inr (Or.inr ⟨q, by simp [hq], hql, hqm⟩)
    · rw [if_neg h1] at hpg
      by_cases h2 : acc.2.length + p.length + 2 > MAX_CHARS_PER_PAGE
      · rw [if_pos h2] at hpg
        have hc' : CurInv (p ++ sep) := by
          refine Or.inr ⟨?_, p, rfl⟩
          have : p.length ≤ MAX_CHARS_PER_PAGE := by omega
          simp [sep]; omega
        rcases ih (acc.1 ++ [strip acc.2], p ++ sep) hc' pg hpg with ha | hb | ⟨q, hq, hql, hqm⟩
        · rcases List.mem_append.mp ha with ha1 | ha2
          · exact Or.inl ha1
          · rw [List.mem_singleton.mp ha2]
            exact Or.inr (Or.inl (stripCur_le acc.2 hc))
        · exact Or.inr (Or.inl hb)
        · exact Or.inr (Or.inr ⟨q, by simp [hq], hql, hqm⟩)
      · rw [if_neg h2] at hpg
        have hc' : CurInv (acc.2 ++ p ++ sep) := by
          refine Or.inr ⟨?_, acc.2 ++ p, by simp [List.append_assoc]⟩
          simp [sep]; omega
        rcases ih (acc.1, acc.2 ++ p ++ sep) hc' pg hpg with ha | hb | ⟨q, hq, hql, hqm⟩
        · exact Or.inl ha
        · exact Or.inr (Or.inl hb)
        · exact Or.inr (Or.inr ⟨q, by simp [hq], hql, hqm⟩)

/-! ### Reconstruction: pages are separator-joins of consecutive blocks -/

theorem strip_joinSep_sep (g : List Str) (_hg : g ≠ [])
    (h : ∀ p ∈ g, GoodBlock p) : strip (joinSep g ++ sep) = joinSep g := by
  rw [strip_append_sep, strip_joinSep g h]

theorem joinSep_group_ne_nil (g : List Str) (hg : g ≠ [])
    (h : ∀ p ∈ g, GoodBlock p) : joinSep g ≠ [] :=
  joinSep_ne_nil g hg (fun p hp => (h p hp).2.1)

theorem c8_fold (l : List Str) (e : List Str) (gs : List (List Str)) (g : List Str)
    (hl : ∀ p ∈ l, GoodBlock p) (hgs : GoodGroups gs)
    (hg : g ≠ []) (hgb : ∀ p ∈ g, GoodBlock p) :
    ∃ gs', flushAcc (l.foldl pageStep (e ++ gs.map joinSep, joinSep g ++ sep)) =
        e ++ gs'.map joinSep ∧
      gs'.flatten = gs.flatten ++ g ++ l ∧ GoodGroups gs' := by
  induction l generalizing gs g with
  | nil =>
    refine ⟨gs ++ [g], ?_, ?_, ?_⟩
    · rw [List.foldl_nil]
      unfold flushAcc
      rw [if_pos (by rw [strip_joinSep_sep g hg hgb]; exact joinSep_group_ne_nil g hg hgb)]
      rw [strip_joinSep_sep g hg hgb]
      simp
    · simp
    · intro gr hgr
      rcases List.mem_append.mp hgr with h1 | h2
      · exact hgs gr h1
      · rw [List.mem_singleton.mp h2]; exact ⟨hg, hgb⟩
  | cons p t ih =>
    have hp : GoodBlock p := hl p (by simp)
    rw [List.foldl_cons]
    unfold pageStep
    rw [if_neg (by have := hp.2.2; omega)]
    by_cases h2 : (joinSep g ++ sep).length + p.length + 2 > MAX_CHARS_PER_PAGE
    · rw [if_pos h2]
      have step : ((e ++ gs.map joinSep) ++ [strip (joinSep g ++ sep)], p ++ sep) =
          (e ++ (gs ++ [g]).map joinSep, joinSep [p] ++ sep) := by
        rw [strip_joinSep_sep g hg hgb]
        simp [joinSep]
      rw [step]
      obtain ⟨gs', hpages, hflat, hgood⟩ :=
        ih (gs ++ [g]) [p]
          (fun q hq => hl q (by simp [hq]))
          (by
            intro gr hgr
            rcases List.mem_append.mp hgr with h1 | hh2
            · exact hgs gr h1
            · rw [List.mem_singleton.mp hh2]; exact ⟨hg, hgb⟩)
          (by simp)
          (by intro q hq; rw [List.mem_singleton.mp hq]; exact hp)
      refine ⟨gs', hpages, ?_, hgood⟩
      rw [hflat]
      simp [List.append_assoc]
    · rw [if_neg h2]
      have step : (e ++ gs.map joinSep, (joinSep g ++ sep) ++ (p ++ sep)) =
          (e ++ gs.map joinSep, joinSep (g ++ [p]) ++ sep) := by
        rw [joinSep_append g [p] hg (by simp)]
        simp [joinSep, List.append_assoc]
      rw [show (joinSep g ++ sep) ++ p ++ sep = (joinSep g ++ sep) ++ (p ++ sep) by
        simp [List.append_assoc], step]
      obtain ⟨gs', hpages, hflat, hgood⟩ :=
        ih gs (g ++ [p])
          (fun q hq => hl q (by simp [hq]))
          hgs
          (by simp)
          (by
            intro q hq
            rcases List.mem_append.mp hq with h1 | hh2
            · exact hgb q h1
            · rw [List.mem_singleton.mp hh2]; exact hp)
      refine ⟨gs', hpages, ?_, hgood⟩
      rw [hflat]
      simp [List.append_assoc]

theorem split_pages_structure (ps : List Str) (h : ∀ p ∈ ps, GoodBlock p) :
    ∃ e gs', (e = [] ∨ e = [([] : Str)]) ∧
      split_pages ps = e ++ gs'.map joinSep ∧ gs'.flatten = ps ∧ GoodGroups gs' := by
  cases ps with
  | nil =>
    exact ⟨[], [], by simp, by simp [split_pages, flushAcc, strip_nil], by simp,
      by intro gr hgr; simp at hgr⟩
  | cons p t =>
    have hp : GoodBlock p := h p (by simp)
    have hfirst : List.foldl pageStep ([], []) (p :: t) =
        List.foldl pageStep (pageStep ([], []) p) t := rfl
    by_cases h2 : ([] : Str).length + p.length + 2 > MAX_CHARS_PER_PAGE
    · have hstep : pageStep ([], []) p = ([([] : Str)] ++ ([] : List (List Str)).map joinSep, joinSep [p] ++ sep) := by
        unfold pageStep
        rw [if_neg (by have := hp.2.2; omega), if_pos h2]
        simp [strip_nil, joinSep]
      obtain ⟨gs', hpages, hflat, hgood⟩ :=
        c8_fold t [([] : Str)] [] [p] (fun q hq => h q (by simp [hq]))
          (by intro gr hgr; simp at hgr) (by simp)
          (by intro q hq; rw [List.mem_singleton.mp hq]; exact hp)
      refine ⟨[([] : Str)], gs', by simp, ?_, ?_, hgood⟩
      · rw [split_pages, hfirst, hstep]
        exact hpages
      · rw [hflat]; simp
    · have hstep : pageStep ([], []) p = (([] : List Str) ++ ([] : List (List Str)).map joinSep, joinSep [p] ++ sep) := by
        unfold pageStep
        rw [if_neg (by have := hp.2.2; omega), if_neg h2]
        simp [joinSep]
      obtain ⟨gs', hpages, hflat, hgood⟩ :=
        c8_fold t ([] : List Str) [] [p] (fun q hq => h q (by simp [hq]))
          (by intro gr hgr; simp at hgr) (by simp)
          (by intro q hq; rw [List.mem_singleton.mp hq]; exact hp)
      refine ⟨[], gs', by simp, ?_, ?_, hgood⟩
      · rw [split_pages, hfirst, hstep]
        exact hpages
      · rw [hflat]; simp

/-! ### Evaluating the paginator on long single-token blocks -/

theorem no_space_replicate (n : Nat) : ∀ c ∈ List.replicate n 'x', c ≠ ' ' := by
  intro c hc
  rw [List.eq_of_mem_replicate hc]
  decide

theorem lstrip_replicate_x (n : Nat) :
    lstrip (List.replicate n 'x') = List.replicate n 'x' := by
  cases n with
  | zero => rfl
  | succ m =>
    rw [List.replicate_succ]
    simp [lstrip, List.dropWhile_cons, show isWS 'x' = false by decide]

theorem rstrip_replicate_x (n : Nat) :
    rstrip (List.replicate n 'x') = List.replicate n 'x' := by
  have h := lstrip_replicate_x n
  simp only [lstrip] at h
  simp only [rstrip, List.reverse_replicate, h]

theorem strip_replicate_x (n : Nat) :
    strip (List.replicate n 'x') = List.replicate n 'x' := by
  rw [strip, lstrip_replicate_x, rstrip_replicate_x]

theorem splitOnSpace_ne_nil (s : Str) : splitOnSpace s ≠ [] := by
  cases s with
  | nil => simp [splitOnSpace]
  | cons c rest =>
    simp only [splitOnSpace]
    rcases h : splitOnSpace rest with _ | ⟨s1, ss⟩
    · simp
    · by_cases hc : c = ' ' <;> simp [hc]

theorem splitOnSpace_no_space (s : Str) (h : ∀ c ∈ s, c ≠ ' ') :
    splitOnSpace s = [s] := by
  induction s with
  | nil => rfl
  | cons c rest ih =>
    have hc : c ≠ ' ' := h c (by simp)
    have hr : splitOnSpace rest = [rest] := ih (fun d hd => h d (by simp [hd]))
    simp [splitOnSpace, hr, hc]

theorem splitLongPara_single_word (n : Nat) (hn : MAX_CHARS_PER_PAGE < n) :
    splitLongPara (List.replicate n 'x') = [[], List.replicate n 'x'] := by
  unfold splitLongPara
  rw [splitOnSpace_no_space _ (no_space_replicate n)]
  show flushAcc (wordStep ([], []) (List.replicate n 'x')) = _
  unfold wordStep
  rw [if_pos (by simp [List.length_replicate]; omega)]
  unfold flushAcc
  have hs : strip (List.replicate n 'x' ++ [' ']) = List.replicate n 'x' := by
    rw [strip_append_space, strip_replicate_x]
  have hne : (List.replicate n 'x' : Str) ≠ [] := by
    have : n ≠ 0 := by omega
    simp [this]
  simp only [hs]
  rw [if_pos (by simpa using hne)]
  simp [strip_nil]

theorem split_pages_single_long_word (n : Nat) (hn : MAX_CHARS_PER_PAGE < n) :
    split_pages [List.replicate n 'x'] = [[], List.replicate n 'x'] := by
  unfold split_pages
  show flushAcc (pageStep ([], []) (List.replicate n 'x')) = _
  unfold pageStep
  rw [if_pos (by simpa [List.length_replicate] using hn)]
  rw [splitLongPara_single_word n hn]
  simp [flushAcc, strip_nil]

theorem split_pages_single_boundary (n : Nat) (h1 : MAX_CHARS_PER_PAGE < n + 2)
    (h2 : n ≤ MAX_CHARS_PER_PAGE) (h0 : n ≠ 0) :
    split_pages [List.replicate n 'x'] = [[], List.replicate n 'x'] := by
  unfold split_pages
  show flushAcc (pageStep ([], []) (List.replicate n 'x')) = _
  unfold pageStep
  rw [if_neg (by simp [List.length_replicate]; omega)]
  rw [if_pos (by simp [List.length_replicate]; omega)]
  unfold flushAcc
  have hs : strip (List.replicate n 'x' ++ sep) = List.replicate n 'x' := by
    rw [strip_append_sep, strip_replicate_x]
  simp only [hs, strip_nil]
  rw [if_pos (by simp [h0])]
  simp


/-! ### Claim theorems -/

/-- Claim C7: every page produced by `split_pages` is either a fallback
page of some over-budget block or has length at most
`MAX_CHARS_PER_PAGE`; in particular every accumulator-path page fits
the budget. -/
theorem c7_nonfallback_pages_bounded (ps : List Str) (pg : Str)
    (h : pg ∈ split_pages ps) :
    pg.length ≤ MAX_CHARS_PER_PAGE ∨
      ∃ p ∈ ps, MAX_CHARS_PER_PAGE < p.length ∧ pg ∈ splitLongPara p := by
  rcases pageFold_bounded ps ([], []) (Or.inl rfl) pg h with ha | hb | hc
  · simp at ha
  · exact Or.inl hb
  · exact Or.inr hc

theorem c7_witness :
    (['a'] : Str).length ≤ MAX_CHARS_PER_PAGE ∨
      ∃ p ∈ [(['a'] : Str)], MAX_CHARS_PER_PAGE < p.length ∧ ['a'] ∈ splitLongPara p :=
  c7_nonfallback_pages_bounded [['a']] ['a'] (by decide)

/-- Claim C10: every page string returned by `split_pages` equals itself
with leading and trailing whitespace stripped. -/
theorem c10_pages_stripped (ps : List Str) (pg : Str) (h : pg ∈ split_pages ps) :
    strip pg = pg := by
  unfold split_pages at h
  exact flushAcc_stripped _ (pageFold_stripped ps ([], []) (by simp)) pg h

theorem c10_witness : strip ['a'] = ['a'] :=
  c10_pages_stripped [['a']] ['a'] (by decide)

/-- Claim C8: for a sequence of trimmed, non-empty blocks that each fit
the budget, joining the produced pages with the paragraph separator and
stripping the ends reconstructs exactly the separator-join of the
original blocks, in order. -/
theorem c8_reconstruction (ps : List Str) (h : ∀ p ∈ ps, GoodBlock p) :
    strip (joinSep (split_pages ps)) = joinSep ps := by
  obtain ⟨e, gs', he, hsp, hflat, hgood⟩ := split_pages_structure ps h
  have hgg : ∀ gr ∈ gs', gr ≠ [] ∧ ∀ p ∈ gr, p ≠ [] := by
    intro gr hgr
    obtain ⟨h1, h2⟩ := hgood gr hgr
    exact ⟨h1, fun p hp => (h2 p hp).2.1⟩
  rw [hsp]
  rcases he with he | he
  · subst he
    rw [List.nil_append, joinSep_map_flatten gs' hgg, hflat]
    exact strip_joinSep ps h
  · subst he
    cases gs' with
    | nil =>
      simp only [List.flatten_nil] at hflat
      rw [← hflat]
      simp [joinSep, strip_nil]
    | cons g t =>
      have hmapne : (g :: t).map joinSep ≠ [] := by simp
      rw [show ([([] : Str)] ++ (g :: t).map joinSep) = ([] : Str) :: (g :: t).map joinSep by simp,
        joinSep_cons ([] : Str) ((g :: t).map joinSep) hmapne,
        List.nil_append, strip_sep_append, joinSep_map_flatten (g :: t) hgg, hflat]
      exact strip_joinSep ps h

theorem c8_witness :
    strip (joinSep (split_pages [['a'], ['b']])) = joinSep [['a'], ['b']] :=
  c8_reconstruction [['a'], ['b']] (by decide)

/-- Claim C6, counterexample: a single 899-character block is strictly
below the budget of 900 yet paginates to two pages (an empty one plus
the block), and a single whitespace block paginates to zero pages; in
neither case is the page count the claimed 1. -/
theorem c6_counterexample :
    (List.replicate 899 'x').length < MAX_CHARS_PER_PAGE ∧
      (split_pages [List.replicate 899 'x']).length ≠ 1 ∧
      ([' '] : Str).length < MAX_CHARS_PER_PAGE ∧
      (split_pages [[' ']]).length ≠ 1 := by
  refine ⟨by rw [List.length_replicate]; decide, ?_, by decide, by decide⟩
  rw [split_pages_single_boundary 899 (by decide) (by decide) (by decide)]
  decide

/-- Claim C6, amended: pagination of the empty sequence is empty, and a
single block needing at most budget - 2 characters and with non-blank
content paginates to exactly one page, its stripped text. -/
theorem c6_amended (p : Str) (hlen : p.length + 2 ≤ MAX_CHARS_PER_PAGE)
    (hne : strip p ≠ []) :
    split_pages [] = ([] : List Str) ∧ split_pages [p] = [strip p] := by
  have hM : MAX_CHARS_PER_PAGE = 900 := rfl
  refine ⟨by simp [split_pages, flushAcc, strip_nil], ?_⟩
  unfold split_pages
  show flushAcc (pageStep ([], []) p) = _
  unfold pageStep
  rw [if_neg (by omega)]
  rw [if_neg (by simp; omega)]
  unfold flushAcc
  simp only [List.nil_append, strip_append_sep]
  rw [if_pos (by simpa using hne)]

theorem c6_amended_witness :
    split_pages [] = ([] : List Str) ∧ split_pages [['a']] = [strip ['a']] :=
  c6_amended ['a'] (by decide) (by decide)

/-- Claim C5, counterexample: a single no-space 2000-character block
with budget 900 does not produce 3 fallback pages. -/
theorem c5_counterexample :
    (split_pages [List.replicate 2000 'x']).length ≠ 3 := by
  rw [split_pages_single_long_word 2000 (by decide)]
  decide

/-- Claim C5, amended: a single no-space 2000-character block with
budget 900 produces exactly two fallback pages: an empty page followed
by the whole 2000-character block kept as one unsplittable token. -/
theorem c5_amended :
    split_pages [List.replicate 2000 'x'] = [[], List.replicate 2000 'x'] :=
  split_pages_single_long_word 2000 (by decide)

/-- Claim C1 (failing-input evaluation): with blocks
["a", 901 times x, "b"] the accumulator holding "a" is not flushed
before the over-budget block's fallback pages; "a" surfaces only in the
final page "a\n\nb", after those fallback pages, so page order differs
from block order. -/
theorem c1_reorder_eval :
    split_pages [['a'], List.replicate 901 'x', ['b']] =
      [[], List.replicate 901 'x', ['a', '\n', '\n', 'b']] := by
  have h1 : pageStep ([], []) ['a'] = ([], ['a'] ++ sep) := by decide
  have h2 : pageStep ([], ['a'] ++ sep) (List.replicate 901 'x') =
      ([[], List.replicate 901 'x'], ['a'] ++ sep) := by
    unfold pageStep
    rw [if_pos (by rw [List.length_replicate]; decide)]
    rw [splitLongPara_single_word 901 (by decide)]
    rw [List.nil_append]
  have h3 : pageStep ([[], List.replicate 901 'x'], ['a'] ++ sep) ['b'] =
      ([[], List.replicate 901 'x'], ['a'] ++ sep ++ ['b'] ++ sep) := by
    unfold pageStep
    rw [if_neg (by decide)]
    rw [if_neg (by decide)]
  unfold split_pages
  rw [List.foldl_cons, List.foldl_cons, List.foldl_cons, List.foldl_nil]
  rw [h1, h2, h3]
  unfold flushAcc
  dsimp only
  rw [if_pos (by decide)]
  rw [show strip (['a'] ++ sep ++ ['b'] ++ sep) = ['a', '\n', '\n', 'b'] by decide]
  dsimp only [List.cons_append, List.nil_append]

/-- Claim C2 (failing-input evaluation): uploading a document whose
extraction yields zero blocks is not rejected: `handle_epub` writes the
cursor record (page 0), installs a Book Session whose page list is
empty, and then `send_page` raises `ZeroDivisionError` computing the
progress with `total = 0`. -/
theorem c2_empty_doc_eval :
    (handle_epub st0 7 [] none none).2 = Except.error PyErr.zeroDivisionError ∧
      (handle_epub st0 7 [] none none).1.users 7 = some 0 ∧
      (handle_epub st0 7 [] none none).1.cache 7 =
        some ⟨defaultTitle, defaultAuthor, [], none⟩ :=
  ⟨rfl, rfl, rfl⟩

/-- Claim C3 (failing-input evaluation): with a stored cursor of 5 and a
cached three-page book, `send_page` evaluates `cache["pages"][5]`
without any re-clamp and raises `IndexError`, both on a direct render
and via the `next` callback. -/
theorem c3_no_clamp_eval :
    send_page st3 7 false = Except.error PyErr.indexError ∧
      callbacks st3 7 Ev.next = Except.error PyErr.indexError :=
  ⟨rfl, rfl⟩

/-- Claim C4 (failing-input evaluation): for the over-budget no-space
block of 901 characters, the word-level fallback emits the empty string
as a page (the unguarded `pages.append(chunk.strip())` with an empty
chunk). -/
theorem c4_empty_fallback_page_eval :
    MAX_CHARS_PER_PAGE < (List.replicate 901 'x').length ∧
      [] ∈ splitLongPara (List.replicate 901 'x') := by
  constructor
  · rw [List.length_replicate]; decide
  · rw [splitLongPara_single_word 901 (by decide)]
    exact List.mem_cons_self [] [List.replicate 901 'x']

/-- Claim C9: any callback (advance, retreat or clear) and any render
arriving while no Book Session is cached for the user returns the state
unchanged and emits nothing: no crash, no cursor write, no render. -/
theorem c9_session_missing_noop (st : BotState) (uid : Nat) (ev : Ev) (first : Bool)
    (h : st.cache uid = none) :
    callbacks st uid ev = .ok (st, none) ∧ send_page st uid first = .ok (st, none) := by
  cases hu : st.users uid with
  | none =>
    constructor
    · unfold callbacks; rw [hu, h]
    · unfold send_page; rw [hu, h]
  | some page =>
    constructor
    · unfold callbacks; rw [hu, h]
    · unfold send_page; rw [hu, h]

theorem c9_witness :
    callbacks st9 3 Ev.next = .ok (st9, none) ∧
      send_page st9 3 false = .ok (st9, none) :=
  c9_session_missing_noop st9 3 Ev.next false rfl

end Reader
